import Mathlib

/-!
Shallow embedding of `Visualization_of_LLM.ipynb`: a minimal transformer
language model (tokenizer, embedding, sinusoidal positional encoding,
single-head self-attention, transformer block, stacked model, online
training loop, greedy decoding).  Tensors of shape (L × d) are modelled as
lists of row vectors over ℝ (the batch dimension of the notebook is always
1 and is dropped).  Operations that raise in PyTorch (index out of range,
shape mismatches on the sequence dimension) return `none`.
-/

set_option autoImplicit false
set_option maxHeartbeats 1000000

namespace LLMSpec

/-- A (rows × cols) tensor: a list of row vectors over ℝ. -/
abbrev Mat := List (List ℝ)

/-- Inner product along the shared dimension. -/
def dotl (u v : List ℝ) : ℝ := (List.zipWith (· * ·) u v).sum

/-- Elementwise vector addition (tensor `+` on one row). -/
def addVec (u v : List ℝ) : List ℝ := List.zipWith (· + ·) u v

/-- `nn.Linear` on one vector: `y = W x + b`, `W` stored as its rows (out × in). -/
def affine (W : Mat) (b : List ℝ) (v : List ℝ) : List ℝ :=
  List.zipWith (fun row bj => dotl row v + bj) W b

/-- `nn.Linear` applied row-wise to a (L × in) matrix. -/
def linearM (W : Mat) (b : List ℝ) (x : Mat) : Mat := x.map (affine W b)

/-- Column `k` of a matrix. -/
def getCol (B : Mat) (k : ℕ) : List ℝ := B.map (fun r => r.getD k 0)

/-- The width (`size(-1)`) of a matrix: the length of its first row. -/
def lastDim (x : Mat) : ℕ := (x.headD []).length

/-- `torch.bmm` with batch 1: `(matMul A B) i k = ∑ j, A i j * B j k`. -/
def matMul (A B : Mat) : Mat :=
  A.map (fun r => (List.range (lastDim B)).map (fun k => dotl r (getCol B k)))

/-- `torch.softmax` along one row: entry `exp zᵢ / ∑ⱼ exp zⱼ`. -/
noncomputable def softmaxRow (v : List ℝ) : List ℝ :=
  v.map (fun z => Real.exp z / (v.map Real.exp).sum)

/-- `nn.ReLU` on one vector. -/
noncomputable def reluV (v : List ℝ) : List ℝ := v.map (fun z => max z 0)

/-- Mean of a vector, as used by `nn.LayerNorm`. -/
noncomputable def meanv (v : List ℝ) : ℝ := v.sum / v.length

/-- Biased variance of a vector, as used by `nn.LayerNorm`. -/
noncomputable def varv (v : List ℝ) : ℝ :=
  ((v.map (fun z => (z - meanv v) ^ 2)).sum) / v.length

/-- PyTorch `nn.LayerNorm` default epsilon `1e-5`. -/
noncomputable def lnEps : ℝ := 1 / 100000

/-- `nn.LayerNorm` on one position: normalize over the channel dimension,
then the learned elementwise affine `g * xhat + s`. -/
noncomputable def layerNormRow (g s v : List ℝ) : List ℝ :=
  List.zipWith (fun (p : ℝ × ℝ) vi =>
    p.1 * ((vi - meanv v) / Real.sqrt (varv v + lnEps)) + p.2) (g.zip s) v

/-- `nn.LayerNorm` applied row-wise (per position). -/
noncomputable def layerNormM (g s : List ℝ) (x : Mat) : Mat := x.map (layerNormRow g s)

/-- Learned parameters of `SelfAttention`: the query/key/value projections. -/
structure AttnParams where
  wq : Mat
  bq : List ℝ
  wk : Mat
  bk : List ℝ
  wv : Mat
  bv : List ℝ

/-- `self.query(x)` of `SelfAttention.forward`. -/
def attnQueries (ap : AttnParams) (x : Mat) : Mat := linearM ap.wq ap.bq x

/-- `self.key(x)` of `SelfAttention.forward`. -/
def attnKeys (ap : AttnParams) (x : Mat) : Mat := linearM ap.wk ap.bk x

/-- `self.value(x)` of `SelfAttention.forward`. -/
def attnValues (ap : AttnParams) (x : Mat) : Mat := linearM ap.wv ap.bv x

/-- `torch.bmm(queries, keys.transpose(1, 2)) / sqrt(x.size(-1))`:
entry (i, j) is `⟨qᵢ, kⱼ⟩ / sqrt d`. -/
noncomputable def attnScores (ap : AttnParams) (x : Mat) : Mat :=
  (attnQueries ap x).map (fun q =>
    (attnKeys ap x).map (fun k => dotl q k / Real.sqrt (lastDim x)))

/-- `torch.softmax(scores, dim := -1)`: softmax along each row. -/
noncomputable def attnWeightsM (ap : AttnParams) (x : Mat) : Mat :=
  (attnScores ap x).map softmaxRow

/-- `SelfAttention.forward`: `torch.bmm(attention_weights, values)`. -/
noncomputable def selfAttention (ap : AttnParams) (x : Mat) : Mat :=
  matMul (attnWeightsM ap x) (attnValues ap x)

/-- Learned parameters of `TransformerBlock`: the attention projections, the
two feed-forward linears and the two layer norms. -/
structure BlockParams where
  attn : AttnParams
  w1 : Mat
  b1 : List ℝ
  w2 : Mat
  b2 : List ℝ
  g1 : List ℝ
  s1 : List ℝ
  g2 : List ℝ
  s2 : List ℝ

/-- The position-wise feed-forward on one position:
`Linear(d, hidden) → ReLU → Linear(hidden, d)`. -/
noncomputable def ffRow (bp : BlockParams) (v : List ℝ) : List ℝ :=
  affine bp.w2 bp.b2 (reluV (affine bp.w1 bp.b1 v))

/-- `self.feed_forward(x)`: the feed-forward applied independently per position. -/
noncomputable def feedForwardM (bp : BlockParams) (x : Mat) : Mat := x.map (ffRow bp)

/-- Tensor addition of two (L × d) matrices. -/
def addM (A B : Mat) : Mat := List.zipWith addVec A B

/-- `TransformerBlock.forward`: attention, residual + norm, feed-forward,
residual + norm. -/
noncomputable def blockForward (bp : BlockParams) (x : Mat) : Mat :=
  let attended := selfAttention bp.attn x
  let x1 := layerNormM bp.g1 bp.s1 (addM x attended)
  let forwarded := feedForwardM bp x1
  layerNormM bp.g2 bp.s2 (addM x1 forwarded)

/-- `div_term` of `PositionalEncoding.__init__`:
`exp((2k) * (-log 10000 / d))` for the k-th entry of `arange(0, d, 2)`. -/
noncomputable def divTerm (d k : ℕ) : ℝ :=
  Real.exp ((2 * k : ℕ) * (-Real.log 10000 / d))

/-- One entry of the positional table: `sin(p * div_term[c/2])` on even
channels, `cos(p * div_term[(c-1)/2])` on odd channels (for odd `c`,
`c / 2 = (c-1) / 2` in ℕ). -/
noncomputable def peEntry (d p c : ℕ) : ℝ :=
  if c % 2 = 0 then Real.sin (p * divTerm d (c / 2))
  else Real.cos (p * divTerm d (c / 2))

/-- The precomputed positional table `pe` (max_seq_len × d). -/
noncomputable def mkPE (maxLen d : ℕ) : Mat :=
  (List.range maxLen).map (fun p => (List.range d).map (fun c => peEntry d p c))

/-- Tensor `+` with PyTorch broadcasting on the sequence dimension: the two
sizes must be equal or one of them must be 1, otherwise a shape-mismatch
error (`none`). -/
def broadcastAdd (A B : Mat) : Option Mat :=
  if A.length = B.length then some (addM A B)
  else if B.length = 1 then some (A.map (fun r => addVec r (B.headD [])))
  else if A.length = 1 then some (B.map (fun r => addVec (A.headD []) r))
  else none

/-- `PositionalEncoding.forward`: `x + pe[:x.size(0), :]`. -/
def positionalForward (pe : Mat) (x : Mat) : Option Mat :=
  broadcastAdd x (pe.take x.length)

/-- All state of `SimpleLLM`: learned parameters plus the positional buffer. -/
structure LLMParams where
  embedW : Mat
  pe : Mat
  blocks : List BlockParams
  outW : Mat
  outB : List ℝ

/-- `nn.Embedding` applied to a token sequence: row lookup per id,
`IndexError` (`none`) on any id outside `[0, vocab_size)`. -/
def embedForward (W : Mat) (tokens : List ℕ) : Option Mat :=
  tokens.mapM (fun t => W[t]?)

/-- `SimpleLLM.forward`: embedding, positional encoding (the two transposes
of the source only move the batch-1 dimension and are dropped), the
transformer blocks in sequence, and the output projection. -/
noncomputable def llmForward (P : LLMParams) (tokens : List ℕ) : Option Mat :=
  match embedForward P.embedW tokens with
  | none => none
  | some emb =>
    match positionalForward P.pe emb with
    | none => none
    | some h0 =>
      some (linearM P.outW P.outB
        (P.blocks.foldl (fun m bp => blockForward bp m) h0))

/-- `torch.argmax` on one vector: the index of the (first) maximum entry. -/
noncomputable def argmaxIdx : List ℝ → ℕ
  | [] => 0
  | x :: xs =>
    let r := argmaxIdx xs
    if x < xs.getD r x then r + 1 else 0

/-- Step 8 greedy decoding: one forward pass, then
`torch.argmax(output[:, -1, :])`; indexing position `-1` of an empty
sequence is an `IndexError` (`none`). -/
noncomputable def greedyDecode (P : LLMParams) (tokens : List ℕ) : Option ℕ :=
  match llmForward P tokens with
  | none => none
  | some out =>
    match out.getLast? with
    | none => none
    | some row => some (argmaxIdx row)

/-- Python `str.split()`: split on whitespace, dropping empty pieces. -/
def splitWords (text : String) : List String :=
  (text.split (fun c => c.isWhitespace)).filter (fun w => w ≠ "")

/-- `tokenize(text, vocab)`: `vocab.get(word, vocab["<UNK>"])` per word;
a vocabulary with no `"<UNK>"` key raises `KeyError` (`none`). -/
def tokenize (text : String) (vocab : List (String × ℕ)) : Option (List ℕ) :=
  match vocab.lookup "<UNK>" with
  | none => none
  | some unk => some ((splitWords text).map (fun w => (vocab.lookup w).getD unk))

/-- The fixed vocabulary of Step 7. -/
def progVocab : List (String × ℕ) :=
  [("hello", 0), ("world", 1), ("how", 2), ("are", 3), ("you", 4),
   ("<UNK>", 5), ("good", 6), ("morning", 7), ("evening", 8), ("night", 9),
   ("friend", 10), ("nice", 11), ("to", 12), ("meet", 13), ("learning", 14),
   ("AI", 15), ("is", 16), ("fun", 17), ("great", 18), ("awesome", 19),
   ("day", 20), ("doing", 21), ("today", 22), ("hope", 23), ("all", 24),
   ("well", 25), ("enjoy", 26), ("sunny", 27), ("weather", 28), ("coding", 29),
   ("Python", 30), ("machine", 31), ("data", 32), ("science", 33),
   ("artificial", 34), ("intelligence", 35), ("deep", 36), ("neural", 37),
   ("network", 38), ("natural", 39), ("language", 40), ("processing", 41),
   ("happy", 42), ("birthday", 43), ("welcome", 44), ("home", 45),
   ("family", 46), ("weekend", 47), ("vacation", 48), ("study", 49),
   ("new", 50), ("projects", 51), ("explore", 52), ("knowledge", 53),
   ("reading", 54), ("books", 55), ("writing", 56), ("articles", 57),
   ("playing", 58), ("games", 59), ("music", 60), ("exercise", 61),
   ("healthy", 62), ("lifestyle", 63), ("delicious", 64), ("food", 65),
   ("travel", 66), ("adventure", 67), ("nature", 68), ("photography", 69),
   ("technology", 70), ("innovation", 71), ("future", 72)]

/-- `vocab_size = len(vocab)`. -/
def vocabSize : ℕ := progVocab.length

/-- `nn.CrossEntropyLoss` on a single example:
`log (∑ⱼ exp zⱼ) - z_target`. -/
noncomputable def crossEntropy (logits : List ℝ) (target : ℕ) : ℝ :=
  Real.log ((logits.map Real.exp).sum) - logits.getD target 0

/-- The (input, target) examples the training loop generates from one
sentence: for `i` in `range(1, len(sentence))`, input `sentence[:i]` and
target `sentence[i]`. -/
def sentenceExamples (s : List ℕ) : List (List ℕ × ℕ) :=
  (List.range' 1 (s.length - 1)).map (fun i => (s.take i, s.getD i 0))

/-- The body of the innermost training loop, on the state
(parameters, total_loss): one forward pass on the given input, the loss on
the logits at the last position against the target, then exactly one
optimizer update (the optimizer `opt` is kept abstract, as the design is
optimizer-agnostic). -/
noncomputable def exampleStep {P : Type} (fwd : P → List ℕ → Mat)
    (opt : P → List ℕ → ℕ → P) : P × ℝ → List ℕ × ℕ → P × ℝ :=
  fun st ex =>
    let logits := fwd st.1 ex.1
    let loss := crossEntropy (logits.getLastD []) ex.2
    (opt st.1 ex.1 ex.2, st.2 + loss)

/-- One epoch of the training loop: the two nested `for` loops over the
tokenized sentences and the split points. -/
def runEpoch {σ : Type} (step : σ → List ℕ × ℕ → σ) (st : σ)
    (sents : List (List ℕ)) : σ :=
  sents.foldl (fun acc s => (sentenceExamples s).foldl step acc) st

/-- State-threading version of `nn.Embedding`: the layer only reads its
weight, so the parameter record is returned alongside the result. -/
def embedForwardS (P : LLMParams) (tokens : List ℕ) : Option Mat × LLMParams :=
  (embedForward P.embedW tokens, P)

/-- State-threading version of `PositionalEncoding.forward`: it only reads
the registered buffer `pe`. -/
def positionalForwardS (P : LLMParams) (x : Mat) : Option Mat × LLMParams :=
  (positionalForward P.pe x, P)

/-- State-threading version of the transformer-block stack. -/
noncomputable def blocksForwardS (P : LLMParams) (x : Mat) : Mat × LLMParams :=
  (P.blocks.foldl (fun m bp => blockForward bp m) x, P)

/-- State-threading version of the output projection. -/
def outputForwardS (P : LLMParams) (x : Mat) : Mat × LLMParams :=
  (linearM P.outW P.outB x, P)

/-- State-threading version of `SimpleLLM.forward`: each stage receives the
parameter record left by the previous stage. -/
noncomputable def llmForwardS (P : LLMParams) (tokens : List ℕ) :
    Option Mat × LLMParams :=
  let e := embedForwardS P tokens
  match e.1 with
  | none => (none, e.2)
  | some emb =>
    let pz := positionalForwardS e.2 emb
    match pz.1 with
    | none => (none, pz.2)
    | some h0 =>
      let bl := blocksForwardS pz.2 h0
      let outp := outputForwardS bl.2 bl.1
      (some outp.1, outp.2)

/-! ### Generic list lemmas -/

theorem mem_zipWith_elim {α β γ : Type} {f : α → β → γ} {c : γ} :
    ∀ {as : List α} {bs : List β}, c ∈ List.zipWith f as bs →
      ∃ a ∈ as, ∃ b ∈ bs, c = f a b := by
  intro as
  induction as with
  | nil => intro bs h; simp at h
  | cons a t ih =>
    intro bs h
    cases bs with
    | nil => simp at h
    | cons b tb =>
      rw [List.zipWith_cons_cons, List.mem_cons] at h
      rcases h with h | h
      · exact ⟨a, by simp, b, by simp, h⟩
      · rcases ih h with ⟨a2, ha2, b2, hb2, hc⟩
        exact ⟨a2, by simp [ha2], b2, by simp [hb2], hc⟩

theorem mapM_option_length {α β : Type} {f : α → Option β} :
    ∀ {l : List α} {r : List β}, l.mapM f = some r → r.length = l.length := by
  intro l
  induction l with
  | nil =>
    intro r h
    rw [List.mapM_nil] at h
    have hr := Option.some.inj h
    simp [← hr]
  | cons a t ih =>
    intro r h
    rw [List.mapM_cons] at h
    cases hfa : f a with
    | none => rw [hfa] at h; simp at h
    | some b =>
      rw [hfa] at h
      cases hmt : t.mapM f with
      | none => rw [hmt] at h; simp at h
      | some rt =>
        rw [hmt] at h
        simp at h
        rw [← h]
        simp [ih hmt]

theorem mapM_option_none {α β : Type} {f : α → Option β} {a : α} :
    ∀ {l : List α}, a ∈ l → f a = none → l.mapM f = none := by
  intro l
  induction l with
  | nil => intro h; simp at h
  | cons x t ih =>
    intro hmem hfa
    rw [List.mapM_cons]
    rcases List.mem_cons.mp hmem with h | h
    · rw [← h, hfa]; rfl
    · cases hfx : f x with
      | none => rfl
      | some b => rw [ih h hfa]; rfl

theorem mapM_option_all_some {α β : Type} {f : α → Option β} :
    ∀ {l : List α}, (∀ a ∈ l, (f a).isSome) → ∃ r, l.mapM f = some r := by
  intro l
  induction l with
  | nil => intro _; exact ⟨[], rfl⟩
  | cons x t ih =>
    intro hall
    have hx := hall x (by simp)
    rcases Option.isSome_iff_exists.mp hx with ⟨b, hb⟩
    rcases ih (fun a ha => hall a (by simp [ha])) with ⟨rt, hrt⟩
    exact ⟨b :: rt, by rw [List.mapM_cons, hb, hrt]; rfl⟩

theorem foldl_flatMap {α σ : Type} (g : α → List (List ℕ × ℕ))
    (step : σ → List ℕ × ℕ → σ) :
    ∀ (l : List α) (st : σ),
      l.foldl (fun acc s => (g s).foldl step acc) st
        = List.foldl step st (l.flatMap g) := by
  intro l
  induction l with
  | nil => intro st; simp
  | cons s t ih =>
    intro st
    rw [List.foldl_cons, List.flatMap_cons, List.foldl_append, ih]

theorem lookup_mem_values {α β : Type} [BEq α] [LawfulBEq α] {k : α} {v : β} :
    ∀ {l : List (α × β)}, l.lookup k = some v → v ∈ l.map Prod.snd := by
  intro l
  induction l with
  | nil => intro h; simp [List.lookup] at h
  | cons p t ih =>
    intro h
    rcases p with ⟨a, b⟩
    rw [List.lookup_cons] at h
    cases hk : (k == a) with
    | true => rw [hk] at h; simp at h; simp [← h]
    | false => rw [hk] at h; simp at h; simp [ih h]

/-! ### Softmax lemmas -/

theorem exp_sum_pos (v : List ℝ) (hv : v ≠ []) : 0 < (v.map Real.exp).sum := by
  apply List.sum_pos
  · intro z hz
    rcases List.mem_map.mp hz with ⟨a, _, rfl⟩
    exact Real.exp_pos a
  · simpa using hv

theorem sum_map_div_const (l : List ℝ) (c : ℝ) :
    (l.map (fun z => Real.exp z / c)).sum = (l.map Real.exp).sum / c := by
  induction l with
  | nil => simp
  | cons a t ih => simp [ih, add_div]

theorem softmaxRow_sum (v : List ℝ) (hv : v ≠ []) : (softmaxRow v).sum = 1 := by
  unfold softmaxRow
  rw [sum_map_div_const]
  exact div_self (ne_of_gt (exp_sum_pos v hv))

theorem softmaxRow_nonneg (v : List ℝ) : ∀ w ∈ softmaxRow v, 0 ≤ w := by
  intro w hw
  unfold softmaxRow at hw
  rcases List.mem_map.mp hw with ⟨z, hz, rfl⟩
  have hvne : v ≠ [] := by rintro rfl; simp at hz
  exact div_nonneg (Real.exp_pos z).le (exp_sum_pos v hvne).le

/-! ### Argmax lemmas -/

theorem argmaxIdx_lt : ∀ (v : List ℝ), v ≠ [] → argmaxIdx v < v.length := by
  intro v
  induction v with
  | nil => intro h; exact absurd rfl h
  | cons x xs ih =>
    intro _
    rw [argmaxIdx]
    by_cases hlt : x < xs.getD (argmaxIdx xs) x
    · have hxs : xs ≠ [] := by
        rintro rfl
        simp at hlt
      rw [if_pos hlt]
      simpa using Nat.succ_lt_succ (ih hxs)
    · rw [if_neg hlt]
      simp

theorem argmaxIdx_is_max :
    ∀ (v : List ℝ), ∀ z ∈ v, z ≤ v.getD (argmaxIdx v) 0 := by
  intro v
  induction v with
  | nil => intro z hz; simp at hz
  | cons x xs ih =>
    intro z hz
    rw [argmaxIdx]
    by_cases hlt : x < xs.getD (argmaxIdx xs) x
    · have hxs : xs ≠ [] := by
        rintro rfl
        simp at hlt
      have hr := argmaxIdx_lt xs hxs
      have hdfl : xs.getD (argmaxIdx xs) x = xs.getD (argmaxIdx xs) 0 := by
        rw [List.getD_eq_getElem _ _ hr, List.getD_eq_getElem _ _ hr]
      rw [if_pos hlt]
      have hget : (x :: xs).getD (argmaxIdx xs + 1) 0 = xs.getD (argmaxIdx xs) 0 :=
        List.getD_cons_succ
      rw [hget]
      rcases List.mem_cons.mp hz with h | h
      · rw [h, ← hdfl]
        exact le_of_lt hlt
      · exact ih z h
    · rw [if_neg hlt]
      have hget : (x :: xs).getD 0 0 = x := rfl
      rw [hget]
      rcases List.mem_cons.mp hz with h | h
      · exact le_of_eq h
      · have hxs : xs ≠ [] := by
          rintro rfl; simp at h
        have hr := argmaxIdx_lt xs hxs
        have hdfl : xs.getD (argmaxIdx xs) x = xs.getD (argmaxIdx xs) 0 := by
          rw [List.getD_eq_getElem _ _ hr, List.getD_eq_getElem _ _ hr]
        have hle : xs.getD (argmaxIdx xs) 0 ≤ x := by
          rw [← hdfl]; exact le_of_not_lt hlt
        exact le_trans (ih z h) hle

/-! ### Shape lemmas -/

theorem length_affine (W : Mat) (b v : List ℝ) :
    (affine W b v).length = min W.length b.length := by
  simp [affine]

theorem length_addVec (u v : List ℝ) :
    (addVec u v).length = min u.length v.length := by
  simp [addVec]

theorem length_layerNormRow (g s v : List ℝ) :
    (layerNormRow g s v).length = min (min g.length s.length) v.length := by
  simp [layerNormRow]

theorem length_ffRow (bp : BlockParams) (v : List ℝ) :
    (ffRow bp v).length = min bp.w2.length bp.b2.length := by
  simp [ffRow, length_affine]

theorem length_addM (A B : Mat) : (addM A B).length = min A.length B.length := by
  simp [addM]

theorem length_selfAttention (ap : AttnParams) (x : Mat) :
    (selfAttention ap x).length = x.length := by
  simp [selfAttention, matMul, attnWeightsM, attnScores, attnQueries, linearM]

theorem width_matMul (A B : Mat) : ∀ r ∈ matMul A B, r.length = lastDim B := by
  intro r hr
  rcases List.mem_map.mp hr with ⟨q, _, rfl⟩
  simp

theorem width_addM {A B : Mat} {d : ℕ} (hA : ∀ r ∈ A, r.length = d)
    (hB : ∀ r ∈ B, r.length = d) : ∀ r ∈ addM A B, r.length = d := by
  intro r hr
  rcases mem_zipWith_elim hr with ⟨a, ha, b, hb, rfl⟩
  rw [length_addVec, hA a ha, hB b hb, min_self]

theorem width_layerNormM {g s : List ℝ} {x : Mat} {d : ℕ} (hg : g.length = d)
    (hs : s.length = d) (hx : ∀ r ∈ x, r.length = d) :
    ∀ r ∈ layerNormM g s x, r.length = d := by
  intro r hr
  rcases List.mem_map.mp hr with ⟨v, hv, rfl⟩
  rw [length_layerNormRow, hg, hs, hx v hv, min_self, min_self]

theorem width_feedForwardM {bp : BlockParams} {x : Mat} {d : ℕ}
    (hw2 : bp.w2.length = d) (hb2 : bp.b2.length = d) :
    ∀ r ∈ feedForwardM bp x, r.length = d := by
  intro r hr
  rcases List.mem_map.mp hr with ⟨v, _, rfl⟩
  rw [length_ffRow, hw2, hb2, min_self]

theorem lastDim_attnValues {ap : AttnParams} {x : Mat} {d : ℕ} (hx : x ≠ [])
    (hx0 : ∀ r ∈ x, r.length = d) (hwv : ap.wv.length = d)
    (hbv : ap.bv.length = d) : lastDim (attnValues ap x) = d := by
  cases x with
  | nil => exact absurd rfl hx
  | cons r t =>
    show (affine ap.wv ap.bv r).length = d
    rw [length_affine, hwv, hbv, min_self]

theorem width_selfAttention {ap : AttnParams} {x : Mat} {d : ℕ}
    (hx0 : ∀ r ∈ x, r.length = d) (hwv : ap.wv.length = d)
    (hbv : ap.bv.length = d) : ∀ r ∈ selfAttention ap x, r.length = d := by
  intro r hr
  have hx : x ≠ [] := by
    rintro rfl
    simp [selfAttention, matMul, attnWeightsM, attnScores, attnQueries,
      linearM] at hr
  rw [width_matMul _ _ r hr, lastDim_attnValues hx hx0 hwv hbv]

theorem length_blockForward (bp : BlockParams) (x : Mat) :
    (blockForward bp x).length = x.length := by
  simp [blockForward, layerNormM, addM, feedForwardM, length_selfAttention]

theorem width_blockForward {bp : BlockParams} {x : Mat} {d : ℕ}
    (hx : ∀ r ∈ x, r.length = d)
    (hwv : bp.attn.wv.length = d) (hbv : bp.attn.bv.length = d)
    (hw2 : bp.w2.length = d) (hb2 : bp.b2.length = d)
    (hg1 : bp.g1.length = d) (hs1 : bp.s1.length = d)
    (hg2 : bp.g2.length = d) (hs2 : bp.s2.length = d) :
    ∀ r ∈ blockForward bp x, r.length = d := by
  have hatt := width_selfAttention hx hwv hbv
  have ha1 := width_addM hx hatt
  have hx1 := width_layerNormM hg1 hs1 ha1
  have hff := width_feedForwardM (x := layerNormM bp.g1 bp.s1
    (addM x (selfAttention bp.attn x))) hw2 hb2
  have ha2 := width_addM hx1 hff
  exact width_layerNormM hg2 hs2 ha2

theorem blockForward_nil (bp : BlockParams) : blockForward bp [] = [] := rfl

theorem foldl_blocks_length (bs : List BlockParams) :
    ∀ x : Mat, (bs.foldl (fun m bp => blockForward bp m) x).length = x.length := by
  induction bs with
  | nil => intro x; rfl
  | cons b t ih =>
    intro x
    rw [List.foldl_cons, ih, length_blockForward]

theorem foldl_blocks_nil (bs : List BlockParams) :
    bs.foldl (fun m bp => blockForward bp m) [] = [] := by
  induction bs with
  | nil => rfl
  | cons b t ih => rw [List.foldl_cons, blockForward_nil, ih]

theorem getD_map_lt {α β : Type} (f : α → β) {l : List α} {i : ℕ}
    (h : i < l.length) (d0 : α) (d1 : β) :
    (l.map f).getD i d1 = f (l.getD i d0) := by
  rw [List.getD_eq_getElem _ _ (by simpa using h), List.getD_eq_getElem _ _ h,
    List.getElem_map]

theorem llmForwardS_eq (P : LLMParams) (tokens : List ℕ) :
    llmForwardS P tokens = (llmForward P tokens, P) := by
  simp only [llmForwardS, llmForward, embedForwardS, positionalForwardS,
    blocksForwardS, outputForwardS]
  cases he : embedForward P.embedW tokens with
  | none => rfl
  | some emb =>
    cases hp : positionalForward P.pe emb with
    | none => simp only [hp]
    | some h0 => simp only [hp]

/-! ### Claims -/

/-- Claim C1: each training epoch walks the sentences and, per sentence,
the split points `i` from 1 to length-1 in order; the example at split `i`
is the input `sentence[:i]` paired with the target `sentence[i]`; one step
runs one forward pass on that input, takes the cross-entropy between the
logits at the last position and the target, and performs exactly one
optimizer update per example, before moving to the next example. -/
theorem claim_C1_training_loop {P : Type} (fwd : P → List ℕ → Mat)
    (opt : P → List ℕ → ℕ → P) (st : P × ℝ) (sents : List (List ℕ)) :
    runEpoch (exampleStep fwd opt) st sents
      = List.foldl (exampleStep fwd opt) st (sents.flatMap sentenceExamples)
    ∧ (∀ s : List ℕ, (sentenceExamples s).length = s.length - 1)
    ∧ (∀ s : List ℕ, ∀ i : ℕ, 1 ≤ i → i < s.length →
        (sentenceExamples s)[i - 1]? = some (s.take i, s.getD i 0))
    ∧ (∀ (p : P) (acc : ℝ) (ex : List ℕ × ℕ),
        exampleStep fwd opt (p, acc) ex
          = (opt p ex.1 ex.2,
             acc + crossEntropy ((fwd p ex.1).getLastD []) ex.2)) := by
  refine ⟨foldl_flatMap sentenceExamples (exampleStep fwd opt) sents st, ?_, ?_, ?_⟩
  · intro s
    simp [sentenceExamples]
  · intro s i h1 h2
    have hm : i - 1 < s.length - 1 := by omega
    rw [sentenceExamples, List.getElem?_map, List.getElem?_range' 1 1 hm]
    have hi : 1 + 1 * (i - 1) = i := by omega
    rw [hi]
    rfl
  · intro p acc ex
    rfl

/-- Claim C4: every entry of the precomputed positional table follows the
sinusoidal formula, `sin(p / 10000^(c/d))` on even channels `c` and
`cos(p / 10000^((c-1)/d))` on odd channels, and the row for position 0 is
`[0, 1, 0, 1, ...]` whatever the (even) embedding width is. -/
theorem claim_C4_positional_formula (maxLen d p c : ℕ) (hd : 0 < d)
    (hde : d % 2 = 0) (hp : p < maxLen) (hc : c < d) :
    (((mkPE maxLen d).getD p []).getD c 0
      = if c % 2 = 0 then Real.sin ((p : ℝ) / (10000 : ℝ) ^ ((c : ℝ) / d))
        else Real.cos ((p : ℝ) / (10000 : ℝ) ^ (((c : ℝ) - 1) / d)))
    ∧ ((mkPE maxLen d).getD 0 []).getD c 0 = if c % 2 = 0 then 0 else 1 := by
  have hentry : ∀ q : ℕ, q < maxLen →
      ((mkPE maxLen d).getD q []).getD c 0 = peEntry d q c := by
    intro q hq
    rw [mkPE, getD_map_lt _ (by simpa using hq) 0 []]
    rw [getD_map_lt _ (by simpa using hc) 0 0]
    rw [List.getD_eq_getElem _ _ (by simpa using hq), List.getElem_range]
    rw [List.getD_eq_getElem _ _ (by simpa using hc), List.getElem_range]
  constructor
  · rw [hentry p hp]
    by_cases hc2 : c % 2 = 0
    · have h2 : 2 * (c / 2) = c := by omega
      simp only [peEntry, divTerm, if_pos hc2]
      congr 1
      rw [h2]
      rw [Real.rpow_def_of_pos (by norm_num : (0 : ℝ) < 10000)]
      have hE : ((c : ℕ) : ℝ) * (-Real.log 10000 / (d : ℝ))
          = -(Real.log 10000 * ((c : ℝ) / d)) := by ring
      rw [hE, Real.exp_neg, ← div_eq_mul_inv]
    · have h2 : 2 * (c / 2) = c - 1 := by omega
      simp only [peEntry, divTerm, if_neg hc2]
      congr 1
      rw [h2, Nat.cast_sub (by omega : 1 ≤ c)]
      rw [Real.rpow_def_of_pos (by norm_num : (0 : ℝ) < 10000)]
      have hE : ((c : ℝ) - (1 : ℕ)) * (-Real.log 10000 / (d : ℝ))
          = -(Real.log 10000 * (((c : ℝ) - 1) / d)) := by
        push_cast
        ring
      rw [hE, Real.exp_neg, ← div_eq_mul_inv]
  · rw [hentry 0 (by omega)]
    by_cases hc2 : c % 2 = 0 <;> simp [peEntry, hc2]

/-- Claim C7: greedy decoding of the empty token sequence fails — selecting
the logits at position -1 of a length-0 output has no position to select —
and never produces a predicted token id. -/
theorem claim_C7_greedy_empty (P : LLMParams) : greedyDecode P [] = none := by
  have hemb : embedForward P.embedW [] = some [] := rfl
  have hpe : positionalForward P.pe [] = some [] := by
    simp [positionalForward, broadcastAdd, addM]
  simp [greedyDecode, llmForward, hemb, hpe, foldl_blocks_nil, linearM]

/-- Claim C9: a forward pass leaves the whole parameter record — embedding
table, per-block projections and norms, output projection, and the
precomputed positional buffer — unchanged; the model keeps no other state
between calls, so a second call on the post-call state computes the same
result as a fresh call on the original state. -/
theorem claim_C9_forward_frame (P : LLMParams) (tokens : List ℕ) :
    (llmForwardS P tokens).2 = P
    ∧ (llmForwardS P tokens).1 = llmForward P tokens
    ∧ ((llmForwardS P tokens).2).pe = P.pe
    ∧ ((llmForwardS P tokens).2).embedW = P.embedW
    ∧ ((llmForwardS P tokens).2).blocks = P.blocks
    ∧ ∀ t2 : List ℕ,
        (llmForwardS ((llmForwardS P tokens).2) t2).1 = llmForward P t2 := by
  rw [llmForwardS_eq]
  exact ⟨rfl, rfl, rfl, rfl, rfl, fun t2 => by rw [llmForwardS_eq]⟩

/-- Claim C2: for an input of shape (L × d), the raw attention score (i, j)
is the query-i/key-j inner product scaled by `1 / sqrt d`; softmax is taken
along each score row, so every attention-weight row is non-negative and
sums to 1; and the output is attention-weights × values, of shape (L × d). -/
theorem claim_C2_self_attention (ap : AttnParams) (x : Mat) (d : ℕ)
    (hx : ∀ r ∈ x, r.length = d)
    (hwv : ap.wv.length = d) (hbv : ap.bv.length = d) :
    (∀ i j : ℕ, i < x.length → j < x.length →
      ((attnScores ap x).getD i []).getD j 0
        = dotl (affine ap.wq ap.bq (x.getD i []))
            (affine ap.wk ap.bk (x.getD j [])) / Real.sqrt (d : ℝ))
    ∧ (∀ i : ℕ, i < x.length →
        ((attnWeightsM ap x).getD i []).sum = 1
          ∧ ∀ w ∈ (attnWeightsM ap x).getD i [], 0 ≤ w)
    ∧ selfAttention ap x = matMul (attnWeightsM ap x) (attnValues ap x)
    ∧ (selfAttention ap x).length = x.length
    ∧ (∀ r ∈ selfAttention ap x, r.length = d) := by
  have hq : ∀ i : ℕ, i < x.length →
      (attnQueries ap x).getD i [] = affine ap.wq ap.bq (x.getD i []) := by
    intro i hi
    exact getD_map_lt _ hi [] []
  have hk : ∀ j : ℕ, j < x.length →
      (attnKeys ap x).getD j [] = affine ap.wk ap.bk (x.getD j []) := by
    intro j hj
    exact getD_map_lt _ hj [] []
  have hrow : ∀ i : ℕ, i < x.length →
      (attnScores ap x).getD i []
        = (attnKeys ap x).map
            (fun k => dotl (affine ap.wq ap.bq (x.getD i [])) k
              / Real.sqrt (lastDim x)) := by
    intro i hi
    have hiq : i < (attnQueries ap x).length := by
      simpa [attnQueries, linearM] using hi
    rw [attnScores, getD_map_lt _ hiq [] [], hq i hi]
  have hLD : ∀ i : ℕ, i < x.length → Real.sqrt (lastDim x) = Real.sqrt d := by
    intro i hi
    cases x with
    | nil => simp at hi
    | cons r t =>
      have : lastDim (r :: t) = d := hx r (by simp)
      rw [this]
  refine ⟨?_, ?_, rfl, length_selfAttention ap x, width_selfAttention hx hwv hbv⟩
  · intro i j hi hj
    have hjk : j < (attnKeys ap x).length := by
      simpa [attnKeys, linearM] using hj
    rw [hrow i hi, getD_map_lt _ hjk [] 0, hk j hj, hLD i hi]
  · intro i hi
    have his : i < (attnScores ap x).length := by
      simpa [attnScores, attnQueries, linearM] using hi
    have hw : (attnWeightsM ap x).getD i []
        = softmaxRow ((attnScores ap x).getD i []) := by
      rw [attnWeightsM]
      exact getD_map_lt _ his [] []
    have hne : (attnScores ap x).getD i [] ≠ [] := by
      rw [hrow i hi]
      rw [Ne, List.map_eq_nil_iff]
      intro hkn
      rw [attnKeys, linearM, List.map_eq_nil_iff] at hkn
      rw [hkn] at hi
      simp at hi
    rw [hw]
    exact ⟨softmaxRow_sum _ hne, softmaxRow_nonneg _⟩

/-- Claim C3: the Transformer Block returns
`Normalize(x1 + feed_forward(x1))` with `x1 = Normalize(x + attention(x))`
(normalization after each residual add), the feed-forward is
`Linear(d, hidden) → ReLU → Linear(hidden, d)` applied per position, and
the output shape equals the input shape (L × d). -/
theorem claim_C3_transformer_block (bp : BlockParams) (x : Mat) (d : ℕ)
    (hx : ∀ r ∈ x, r.length = d)
    (hwv : bp.attn.wv.length = d) (hbv : bp.attn.bv.length = d)
    (hw2 : bp.w2.length = d) (hb2 : bp.b2.length = d)
    (hg1 : bp.g1.length = d) (hs1 : bp.s1.length = d)
    (hg2 : bp.g2.length = d) (hs2 : bp.s2.length = d) :
    blockForward bp x
      = layerNormM bp.g2 bp.s2
          (addM (layerNormM bp.g1 bp.s1 (addM x (selfAttention bp.attn x)))
            (feedForwardM bp
              (layerNormM bp.g1 bp.s1 (addM x (selfAttention bp.attn x)))))
    ∧ (∀ v : List ℝ,
        ffRow bp v = affine bp.w2 bp.b2 (reluV (affine bp.w1 bp.b1 v)))
    ∧ (∀ y : Mat, ∀ i : ℕ, i < y.length →
        (feedForwardM bp y).getD i [] = ffRow bp (y.getD i []))
    ∧ (blockForward bp x).length = x.length
    ∧ (∀ r ∈ blockForward bp x, r.length = d) := by
  refine ⟨rfl, fun v => rfl, ?_, length_blockForward bp x,
    width_blockForward hx hwv hbv hw2 hb2 hg1 hs1 hg2 hs2⟩
  intro y i hi
  exact getD_map_lt _ hi [] []

/-- Claim C5: when the input is longer than the positional table, the
forward pass fails (the slice of `pe` is shorter than the input, so the
addition is a shape mismatch) and returns no result; when it fits, the
positional step neither truncates nor wraps: the output keeps the input
length and row `i` is exactly `input row i + pe row i`. -/
theorem claim_C5_capacity (P : LLMParams) (tokens : List ℕ)
    (hpe : 1 < P.pe.length) (hlen : P.pe.length < tokens.length) :
    llmForward P tokens = none
    ∧ ∀ x : Mat, x.length ≤ P.pe.length →
        positionalForward P.pe x = some (addM x (P.pe.take x.length))
        ∧ (addM x (P.pe.take x.length)).length = x.length
        ∧ ∀ i : ℕ, i < x.length →
            (addM x (P.pe.take x.length)).getD i []
              = addVec (x.getD i []) (P.pe.getD i []) := by
  constructor
  · cases he : embedForward P.embedW tokens with
    | none => simp [llmForward, he]
    | some emb =>
      have hl : emb.length = tokens.length := mapM_option_length he
      have htk : (P.pe.take emb.length).length = P.pe.length := by
        rw [List.length_take]
        omega
      have hcond : ¬ emb.length = (P.pe.take emb.length).length := by
        rw [htk]
        omega
      have hcond2 : ¬ (P.pe.take emb.length).length = 1 := by
        rw [htk]
        omega
      have hcond3 : ¬ emb.length = 1 := by omega
      simp only [llmForward, he, positionalForward, broadcastAdd,
        if_neg hcond, if_neg hcond2, if_neg hcond3]
  · intro x hx
    have htk : (P.pe.take x.length).length = x.length := by
      rw [List.length_take]
      omega
    have hsome : positionalForward P.pe x = some (addM x (P.pe.take x.length)) := by
      rw [positionalForward, broadcastAdd, if_pos htk.symm]
    refine ⟨hsome, ?_, ?_⟩
    · rw [length_addM, htk, min_self]
    · intro i hi
      have hiz : i < (addM x (P.pe.take x.length)).length := by
        rw [length_addM, htk, min_self]
        exact hi
      rw [List.getD_eq_getElem _ _ hiz]
      simp only [addM]
      rw [List.getElem_zipWith]
      rw [List.getD_eq_getElem _ _ hi,
        List.getD_eq_getElem _ _ (by omega : i < P.pe.length), List.getElem_take]

/-- Claim C6: a token id at or above `vocab_size` makes the embedding
lookup fail with an index error; nothing in the model catches it, so the
whole forward pass and the decoder fail with no result; an id inside
`[0, vocab_size)` looks up row `id` of the embedding matrix without
error. -/
theorem claim_C6_embedding_errors (P : LLMParams) (tokens : List ℕ) (id : ℕ)
    (hmem : id ∈ tokens) (hout : P.embedW.length ≤ id) :
    P.embedW[id]? = none
    ∧ embedForward P.embedW tokens = none
    ∧ llmForward P tokens = none
    ∧ greedyDecode P tokens = none
    ∧ ∀ j : ℕ, ∀ h : j < P.embedW.length,
        embedForward P.embedW [j] = some [P.embedW.get ⟨j, h⟩] := by
  have hnone : (P.embedW[id]? : Option (List ℝ)) = none :=
    List.getElem?_eq_none hout
  have hemb : embedForward P.embedW tokens = none :=
    mapM_option_none hmem hnone
  refine ⟨hnone, hemb, by simp [llmForward, hemb],
    by simp [greedyDecode, llmForward, hemb], ?_⟩
  intro j h
  rw [embedForward, List.mapM_cons, List.getElem?_eq_getElem h]
  rw [List.mapM_nil]
  simp

/-- Claim C8: on a non-empty token sequence (with in-range ids, within the
positional capacity) the greedy decoder returns the arg-max index of the
logits at the final position of a single forward pass — an index whose
logit is maximal over the whole row — and, the decoder being a pure
function of the frozen parameters and the input, two runs on the same
input return the same predicted id. -/
theorem claim_C8_greedy_decode (P : LLMParams) (tokens : List ℕ)
    (hne : tokens ≠ []) (hids : ∀ t ∈ tokens, t < P.embedW.length)
    (hcap : tokens.length ≤ P.pe.length) :
    ∃ out : Mat, llmForward P tokens = some out
      ∧ out.length = tokens.length
      ∧ greedyDecode P tokens = some (argmaxIdx (out.getLastD []))
      ∧ (∀ z ∈ out.getLastD [],
          z ≤ (out.getLastD []).getD (argmaxIdx (out.getLastD [])) 0)
      ∧ ∀ r1 r2 : Option ℕ, r1 = greedyDecode P tokens →
          r2 = greedyDecode P tokens → r1 = r2 := by
  obtain ⟨emb, he⟩ := mapM_option_all_some (l := tokens)
    (f := fun t => P.embedW[t]?) (fun a ha => by
      show (P.embedW[a]?).isSome = true
      rw [List.getElem?_eq_getElem (hids a ha)]
      rfl)
  have he2 : embedForward P.embedW tokens = some emb := he
  have hlemb : emb.length = tokens.length := mapM_option_length he2
  have htk : (P.pe.take emb.length).length = emb.length := by
    rw [List.length_take]
    omega
  have hpos : positionalForward P.pe emb
      = some (addM emb (P.pe.take emb.length)) := by
    rw [positionalForward, broadcastAdd, if_pos htk.symm]
  have hl0 : (addM emb (P.pe.take emb.length)).length = tokens.length := by
    rw [length_addM, htk, min_self, hlemb]
  have hfwd : llmForward P tokens
      = some (linearM P.outW P.outB
          (P.blocks.foldl (fun m bp => blockForward bp m)
            (addM emb (P.pe.take emb.length)))) := by
    simp only [llmForward, he2, hpos]
  have hlout : (linearM P.outW P.outB
      (P.blocks.foldl (fun m bp => blockForward bp m)
        (addM emb (P.pe.take emb.length)))).length = tokens.length := by
    rw [linearM, List.length_map, foldl_blocks_length, hl0]
  have houtne : linearM P.outW P.outB
      (P.blocks.foldl (fun m bp => blockForward bp m)
        (addM emb (P.pe.take emb.length))) ≠ [] := by
    intro hcon
    rw [hcon] at hlout
    have h0 : tokens.length = 0 := hlout.symm
    exact hne (List.length_eq_zero.mp h0)
  have hlast : (linearM P.outW P.outB
      (P.blocks.foldl (fun m bp => blockForward bp m)
        (addM emb (P.pe.take emb.length)))).getLast?
      = some ((linearM P.outW P.outB
          (P.blocks.foldl (fun m bp => blockForward bp m)
            (addM emb (P.pe.take emb.length)))).getLastD []) := by
    rw [List.getLastD_eq_getLast?, List.getLast?_eq_getLast _ houtne]
    rfl
  refine ⟨_, hfwd, hlout, ?_, argmaxIdx_is_max _, fun r1 r2 h1 h2 => by rw [h1, h2]⟩
  simp only [greedyDecode, hfwd, hlast]

/-- Claim C10: tokenization only ever emits values of the vocabulary
mapping (either the looked-up id or the id of `"<UNK>"`); with the fixed
program vocabulary every emitted id is below `vocab_size = 73`, so the
embedding table's index-error branch cannot be reached from tokenized
input. -/
theorem claim_C10_tokenize_safe (text : String) (vocab : List (String × ℕ))
    (unk : ℕ) (hunk : vocab.lookup "<UNK>" = some unk) :
    (∃ ids, tokenize text vocab = some ids
      ∧ ∀ id ∈ ids, id ∈ vocab.map Prod.snd)
    ∧ vocabSize = 73
    ∧ ∀ ids2, tokenize text progVocab = some ids2 →
        ∀ id ∈ ids2, id < vocabSize
          ∧ ∀ W : Mat, W.length = vocabSize → (W[id]?).isSome := by
  have hval : ∀ (v : List (String × ℕ)) (u : ℕ), v.lookup "<UNK>" = some u →
      ∀ id ∈ (splitWords text).map (fun w => (v.lookup w).getD u),
        id ∈ v.map Prod.snd := by
    intro v u hu id hid
    rcases List.mem_map.mp hid with ⟨w, _, rfl⟩
    cases hw : v.lookup w with
    | none => simpa [hw] using lookup_mem_values hu
    | some z => simpa [hw] using lookup_mem_values hw
  refine ⟨⟨(splitWords text).map (fun w => (vocab.lookup w).getD unk),
    by simp only [tokenize, hunk], hval vocab unk hunk⟩, rfl, ?_⟩
  intro ids2 hids2 id hid
  have hunkP : progVocab.lookup "<UNK>" = some 5 := by rfl
  simp only [tokenize, hunkP] at hids2
  have hids2i := Option.some.inj hids2
  rw [← hids2i] at hid
  have hmemv : id ∈ progVocab.map Prod.snd := hval progVocab 5 hunkP id hid
  have hbound : ∀ z ∈ progVocab.map Prod.snd, z < 73 := by decide
  refine ⟨hbound id hmemv, ?_⟩
  intro W hW
  rw [List.getElem?_eq_getElem (by rw [hW]; exact hbound id hmemv)]
  rfl

/-! ### Concrete instances for the witnesses -/

/-- A concrete self-attention parameter set with `d = 1`. -/
def wAttn : AttnParams := ⟨[[1]], [0], [[1]], [0], [[1]], [0]⟩

/-- A concrete transformer-block parameter set with `d = hidden = 1`. -/
def wBlock : BlockParams := ⟨wAttn, [[1]], [0], [[1]], [0], [1], [0], [1], [0]⟩

/-- A concrete model: vocabulary size 1, `d = 1`, one block,
positional capacity 2. -/
def wLLM : LLMParams := ⟨[[0]], [[0], [0]], [wBlock], [[1]], [0]⟩

theorem claim_C1_training_loop_witness :
    (sentenceExamples [7, 8, 9])[2 - 1]?
      = some (([7, 8, 9] : List ℕ).take 2, ([7, 8, 9] : List ℕ).getD 2 0) :=
  (claim_C1_training_loop (fun (_ : Unit) _ => ([] : Mat)) (fun p _ _ => p)
    ((), 0) []).2.2.1 [7, 8, 9] 2 (by decide) (by decide)

theorem claim_C2_self_attention_witness :
    ((attnWeightsM wAttn [[0]]).getD 0 []).sum = 1 :=
  ((claim_C2_self_attention wAttn [[0]] 1 (by decide) (by decide)
    (by decide)).2.1 0 (by decide)).1

theorem claim_C3_transformer_block_witness :
    (blockForward wBlock [[0]]).length = ([[0]] : Mat).length :=
  (claim_C3_transformer_block wBlock [[0]] 1 (by decide) (by decide)
    (by decide) (by decide) (by decide) (by decide) (by decide) (by decide)
    (by decide)).2.2.2.1

theorem claim_C4_positional_formula_witness :
    ((mkPE 3 2).getD 0 []).getD 1 0 = if 1 % 2 = 0 then 0 else 1 :=
  (claim_C4_positional_formula 3 2 2 1 (by decide) (by decide) (by decide)
    (by decide)).2

theorem claim_C5_capacity_witness : llmForward wLLM [0, 0, 0] = none :=
  (claim_C5_capacity wLLM [0, 0, 0] (by decide) (by decide)).1

theorem claim_C6_embedding_errors_witness : greedyDecode wLLM [5] = none :=
  (claim_C6_embedding_errors wLLM [5] 5 (by decide) (by decide)).2.2.2.1

theorem claim_C8_greedy_decode_witness :
    ∃ out : Mat, llmForward wLLM [0] = some out
      ∧ out.length = ([0] : List ℕ).length
      ∧ greedyDecode wLLM [0] = some (argmaxIdx (out.getLastD []))
      ∧ (∀ z ∈ out.getLastD [],
          z ≤ (out.getLastD []).getD (argmaxIdx (out.getLastD [])) 0)
      ∧ ∀ r1 r2 : Option ℕ, r1 = greedyDecode wLLM [0] →
          r2 = greedyDecode wLLM [0] → r1 = r2 :=
  claim_C8_greedy_decode wLLM [0] (by decide) (by decide) (by decide)

theorem claim_C10_tokenize_safe_witness :
    ∃ ids, tokenize "hello qq" progVocab = some ids
      ∧ ∀ id ∈ ids, id ∈ progVocab.map Prod.snd :=
  (claim_C10_tokenize_safe "hello qq" progVocab 5 (by rfl)).1

end LLMSpec
